import Mathlib

/-!
Verification of `scripts/download_backgrounds.py` (mint-backgrounds repository).

The script is shallowly embedded: Python strings become `List Char`, Python
dicts become association lists with insert-or-update semantics, and the
network / filesystem environment becomes explicit parameters (oracles giving
the fetched listings, the outcome of each download attempt, and so on).
Python floats are modelled as exact decimal fractions `m / 10^e`; every
claim below only involves float values on which Python's binary floating
point is exact.
-/

/-- Python strings are modelled as lists of characters. -/
abbrev Str := List Char

/-- Python `s.lower()` (ASCII). -/
def lowerStr (s : Str) : Str := s.map Char.toLower

/-- Python `s.startswith(p)` / "p is a leading substring of s". -/
def startsWith : Str → Str → Bool
  | [], _ => true
  | _ :: _, [] => false
  | a :: as, b :: bs => a == b && startsWith as bs

/-- Python `p in s` (substring containment). -/
def hasSub (p : Str) : Str → Bool
  | [] => p.isEmpty
  | c :: rest => startsWith p (c :: rest) || hasSub p rest

/-- Python `s.endswith(p)`. -/
def endsWith (p s : Str) : Bool := s.drop (s.length - p.length) == p

/-- Python `s.split(c, 1)`: split at the first occurrence of `c`; `none`
when `c` does not occur. -/
def splitFirst (c : Char) : Str → Option (Str × Str)
  | [] => none
  | a :: rest =>
    if a == c then some ([], rest)
    else
      match splitFirst c rest with
      | some p => some (a :: p.1, p.2)
      | none => none

/-- One-pass fuel-indexed worker for `replaceAll`.  Scans left to right; at
each position, if the (nonempty) pattern starts there it is dropped and the
scan continues after it, exactly like CPython's `str.replace(pat, "")`. -/
def replaceAllGo (pat : Str) : Nat → Str → Str
  | _, [] => []
  | 0, s => s
  | fuel + 1, c :: rest =>
    if startsWith pat (c :: rest) && !pat.isEmpty then
      replaceAllGo pat fuel (List.drop pat.length (c :: rest))
    else c :: replaceAllGo pat fuel rest

/-- Python `s.replace(pat, "")`: remove every (leftmost, non-overlapping)
occurrence of `pat` in one pass. -/
def replaceAll (pat s : Str) : Str := replaceAllGo pat s.length s

/-- `pat` occurs in `s` only as its final suffix (and nowhere else). -/
def onlyEndOcc (pat s : Str) : Bool :=
  (List.range s.length).all
    (fun i => !startsWith pat (s.drop i) || i + pat.length == s.length)

/-! ## Constants of the script -/

def MIN_SIZE_MB : Nat := 13

def MIN_SIZE_BYTES : Nat := MIN_SIZE_MB * 1024 * 1024

def MAX_RETRIES : Nat := 3

def RETRY_DELAY : Nat := 5

/-- The image-extension set used both by the archive processor and by the
statistics walk. -/
def imageExts : List Str :=
  [".jpg".data, ".jpeg".data, ".png".data, ".svg".data]

/-! ## `parse_size` -/

/-- A character of the regex class `[0-9.]`. -/
def isSizeChar (c : Char) : Bool := c.isDigit || c == '.'

/-- Value of a digit string read in base 10. -/
def digitsToNat (s : Str) : Nat :=
  s.foldl (fun n c => 10 * n + (c.toNat - '0'.toNat)) 0

/-- Python `float(s)` for a string drawn from `[0-9.]+`: defined when `s`
has at least one digit and at most one dot, `none` when `float` would raise
`ValueError`.  The value is represented exactly as the decimal fraction
`m / 10^e`, returned as the pair `(m, e)`. -/
def pyFloatDec (s : Str) : Option (Nat × Nat) :=
  if s.any Char.isDigit ∧ s.countP (fun c => c == '.') ≤ 1 then
    some
      (match splitFirst '.' s with
       | none => (digitsToNat s, 0)
       | some p => (digitsToNat p.1 * 10 ^ p.2.length + digitsToNat p.2, p.2.length))
  else none

/-- The `multipliers` dict lookup `multipliers.get(unit, 1)`. -/
def multipliers (u : Char) : Nat :=
  if u == 'K' then 1024 else if u == 'M' then 1024 ^ 2 else if u == 'G' then 1024 ^ 3 else 1

/-- `parse_size`: convert a size token like `16.5M` to bytes.  Mirrors
`re.match(r"([0-9.]+)([MKG])", size_str)`: the greedy group `[0-9.]+` is the
maximal `[0-9.]` prefix and the match succeeds only when the character right
after it is `M`, `K` or `G` (backtracking cannot help, since any character
the first group gives back is in `[0-9.]` and hence not in `[MKG]`).
Returns `none` when the Python code would raise (`float` on a group like
`"1.2.3"`), `some bytes` otherwise; `int(value * mult)` truncates the
nonnegative value `(m / 10^e) * mult`, which is the natural-number division
`m * mult / 10^e`. -/
def parse_size (size_str : Str) : Option Nat :=
  if size_str.isEmpty then some 0
  else
    let num := size_str.takeWhile isSizeChar
    match size_str.drop num.length with
    | [] => some 0
    | u :: _ =>
      if num.isEmpty then some 0
      else if u == 'M' || u == 'K' || u == 'G' then
        match pyFloatDec num with
        | some me => some (me.1 * multipliers u / 10 ^ me.2)
        | none => none
      else some 0

/-! ## `extract_version_info`, `normalize_package_name` -/

/-- `extract_version_info`: strip the `.tar.gz` and `mint-backgrounds-`
markers (each via one-pass `str.replace`), then split at the first
underscore; without an underscore the version is `"unknown"`. -/
def extract_version_info (tarball_name : Str) : Str × Str :=
  let base := replaceAll ".tar.gz".data tarball_name
  let base2 := replaceAll "mint-backgrounds-".data base
  match splitFirst '_' base2 with
  | some p => (p.1, p.2)
  | none => (base2, "unknown".data)

/-- `normalize_package_name`: remove the `-extra` marker. -/
def normalize_package_name (name : Str) : Str := replaceAll "-extra".data name

/-- The version key `f"{package_name}_{version}"` derived from a tarball
filename. -/
def pkg_key (tarball_name : Str) : Str :=
  let pv := extract_version_info tarball_name
  pv.1 ++ '_' :: pv.2


/-! ## `fetch_page`

The network is an oracle giving, for each attempt index, the outcome of that
attempt's `urlopen`.  The loop `for attempt in range(MAX_RETRIES)` is run
over the list `List.range MAX_RETRIES`; every exception path of the source
is caught inside the loop, so the embedding is a total function. -/

/-- Outcome of one `urlopen` attempt inside `fetch_page`. -/
inductive FetchOutcome where
  | success (body : Str)
  | httpError (code : Nat)
  | urlError
deriving DecidableEq

/-- What one call of `fetch_page` did: the returned text, how many attempts
were consumed, and the backoff waits (`time.sleep(wait_time)`) performed. -/
structure FetchResult where
  text : Str
  attemptsMade : Nat
  waits : List Nat
deriving DecidableEq

/-- An outcome `fetch_page` retries on: HTTP 429/503 or a `URLError`. -/
def retryable : FetchOutcome → Bool
  | .success _ => false
  | .httpError c => c == 429 || c == 503
  | .urlError => true

/-- The `for attempt in range(MAX_RETRIES)` loop of `fetch_page`. -/
def fetchLoop (oracle : Nat → FetchOutcome) : List Nat → FetchResult
  | [] => ⟨"".data, 0, []⟩
  | attempt :: rest =>
    match oracle attempt with
    | .success body => ⟨body, 1, []⟩
    | .httpError code =>
      if code == 429 || code == 503 then
        let r := fetchLoop oracle rest
        ⟨r.text, r.attemptsMade + 1, RETRY_DELAY * (attempt + 1) :: r.waits⟩
      else ⟨"".data, 1, []⟩
    | .urlError =>
      if attempt < MAX_RETRIES - 1 then
        let r := fetchLoop oracle rest
        ⟨r.text, r.attemptsMade + 1, RETRY_DELAY * (attempt + 1) :: r.waits⟩
      else ⟨"".data, 1, []⟩

/-- `fetch_page`, as a function of the attempt oracle. -/
def fetch_page (oracle : Nat → FetchOutcome) : FetchResult :=
  fetchLoop oracle (List.range MAX_RETRIES)

/-! ## Inventory: Python dicts as association lists -/

/-- `key in d` for a Python dict. -/
def dictMem {α : Type} (k : Str) : List (Str × α) → Bool
  | [] => false
  | kv :: rest => kv.1 == k || dictMem k rest

/-- `d[key]` lookup (first binding wins; `dictInsert` keeps keys unique). -/
def dictGet {α : Type} (k : Str) : List (Str × α) → Option α
  | [] => none
  | kv :: rest => if kv.1 == k then some kv.2 else dictGet k rest

/-- `d[key] = v` for a Python dict: update in place when the key exists,
append otherwise (insertion order preserved). -/
def dictInsert {α : Type} (k : Str) (v : α) (d : List (Str × α)) : List (Str × α) :=
  if dictMem k d then d.map (fun kv => if kv.1 = k then (k, v) else kv)
  else d ++ [(k, v)]

/-- One entry of the remote tarball listing, as produced by
`get_tarballs_for_package`. -/
structure Tarball where
  name : Str
  url : Str
  size_bytes : Nat
  size_str : Str
deriving DecidableEq

/-- One persisted record of `versions.json`'s `packages` mapping. -/
structure InventoryRecord where
  name : Str
  version : Str
  size : Str
  downloaded_at : Str
deriving DecidableEq

/-- The `packages` mapping of `versions.json`. -/
abbrev PkgDict := List (Str × InventoryRecord)

/-- The statistics block `save_versions` derives by walking the output
directory tree (`total_images`, `total_size_mb`, `latest_mint_release`,
`latest_mint_version`).  The walk itself is an environment input. -/
structure DiskStats where
  total_images : Nat
  total_size_mb : Int
  latest_mint_release : Option Str
  latest_mint_version : Int
deriving DecidableEq

/-- The derived statistics fields written by `save_versions`. -/
structure Stats where
  total_packages : Nat
  disk : DiskStats
deriving DecidableEq

/-- The persisted `versions.json` document. -/
structure Versions where
  packages : PkgDict
  last_checked : Option Str
  stats : Option Stats
deriving DecidableEq

/-- The environment of one orchestrator run: what the remote listings
contain, whether each `download_and_extract` call succeeds, the current
timestamp, and the derived disk statistics `save_versions` would compute. -/
structure ScanEnv where
  dirs : List Str
  tarballs : Str → List Tarball
  downloadOk : Tarball → Bool
  now : Str
  diskStats : DiskStats

/-- `save_versions`: stamp `last_checked` and recompute every derived
statistic; the `packages` mapping is written through unchanged. -/
def save_versions (env : ScanEnv) (v : Versions) : Versions :=
  { packages := v.packages
    last_checked := some env.now
    stats := some { total_packages := v.packages.length, disk := env.diskStats } }

/-- The flattened tarball stream of one scan: directories in order, each
directory's tarball listing in order. -/
def allTarballs (env : ScanEnv) : List Tarball :=
  env.dirs.flatMap env.tarballs

/-- The package names already present in the inventory
(`[extract_version_info(k)[0] for k in existing_packages]`). -/
def existingNames (d : PkgDict) : List Str :=
  d.map (fun kv => (extract_version_info kv.1).1)

/-- The per-tarball decision of the scan loop of `check_and_download`:
`none` when the entry is skipped (too small, or version key already in the
inventory), `some false` when queued as new, `some true` when queued as
updated. -/
def queueOf (existing : PkgDict) (t : Tarball) : Option Bool :=
  if t.size_bytes < MIN_SIZE_BYTES then none
  else if dictMem (pkg_key t.name) existing then none
  else some (decide ((extract_version_info t.name).1 ∈ existingNames existing))

/-- The `new_packages` queue accumulated by the scan loop. -/
def new_packages (env : ScanEnv) (existing : PkgDict) : List Tarball :=
  (allTarballs env).filter (fun t => queueOf existing t == some false)

/-- The `updated_packages` queue accumulated by the scan loop. -/
def updated_packages (env : ScanEnv) (existing : PkgDict) : List Tarball :=
  (allTarballs env).filter (fun t => queueOf existing t == some true)

/-- The `InventoryRecord` written for a successfully processed tarball. -/
def mkRecord (env : ScanEnv) (t : Tarball) : InventoryRecord :=
  { name := t.name
    version := (extract_version_info t.name).2
    size := t.size_str
    downloaded_at := env.now }

/-- The download loop of `check_and_download`: for each queued tarball, on
`download_and_extract` success record it under its version key. -/
def processAll (env : ScanEnv) : PkgDict → List Tarball → PkgDict
  | ex, [] => ex
  | ex, t :: rest =>
    if env.downloadOk t then
      processAll env (dictInsert (pkg_key t.name) (mkRecord env t) ex) rest
    else processAll env ex rest

/-- What one `check_and_download` run produced. -/
structure RunResult where
  versions : Versions
  new_packages : List Tarball
  updated_packages : List Tarball
  had_updates : Bool
deriving DecidableEq

/-- `check_and_download`: scan all directories, queue new/updated tarballs,
download them, and persist the inventory. -/
def check_and_download (env : ScanEnv) (v : Versions) : RunResult :=
  let existing := v.packages
  let newP := new_packages env existing
  let updP := updated_packages env existing
  let all_new := newP ++ updP
  if all_new = [] then
    { versions := save_versions env v
      new_packages := newP
      updated_packages := updP
      had_updates := false }
  else
    { versions := save_versions env { v with packages := processAll env existing all_new }
      new_packages := newP
      updated_packages := updP
      had_updates := true }

/-! ## `has_updates` -/

/-- The persistent state `has_updates` could touch: the `versions.json`
document and the output directory tree. -/
structure World where
  versionsFile : Option Versions
  outputTree : List (Str × List (Str × Nat))

/-- `load_versions`: the persisted document, or a fresh empty one. -/
def load_versions (w : World) : Versions :=
  w.versionsFile.getD { packages := [], last_checked := none, stats := none }

/-- The scan loop of `has_updates`: return `True` at the first tarball at or
above the size threshold whose version key is not in the inventory. -/
def hasUpdatesLoop (existing : PkgDict) : List Tarball → Bool
  | [] => false
  | t :: rest =>
    if t.size_bytes < MIN_SIZE_BYTES then hasUpdatesLoop existing rest
    else if dictMem (pkg_key t.name) existing then hasUpdatesLoop existing rest
    else true

/-- `has_updates`: read the inventory and the remote listings, report a
boolean; it performs no write, so the world is returned as it came. -/
def has_updates (env : ScanEnv) (w : World) : World × Bool :=
  (w, hasUpdatesLoop (load_versions w).packages (allTarballs env))

/-! ## `download_and_extract` -/

/-- One member file produced by extracting a tarball, as seen by the
`os.walk` loop: its directory within the extraction root, its basename, the
`os.path.islink` flag, and an abstract identifier standing for its bytes
and metadata. -/
structure ExtractedFile where
  relpath : Str
  name : Str
  is_symlink : Bool
  content : Nat
deriving DecidableEq

/-- The destination directory: basename to content-identifier. -/
abbrev OutDir := List (Str × Nat)

/-- The classification of the copy loop body for one walked file: `none`
when the file is skipped, `some (dest_name, content)` when it is copied
into the destination under `dest_name` (`shutil.copy2` preserves content
and metadata, both folded into `content`). -/
def copyAction (package_name : Str) (f : ExtractedFile) : Option (Str × Nat) :=
  let file_lower := lowerStr f.name
  if f.is_symlink then none
  else if imageExts.any (fun e => endsWith e file_lower) then
    if hasSub "screenshot".data file_lower then none
    else some (f.name, f.content)
  else if hasSub "credits".data file_lower then
    some ("Credits_".data ++ package_name, f.content)
  else none

/-- The copy loop over all walked files.  `copyFails f` says `shutil.copy2`
raises on `f`; the boolean of the result reports whether the loop was
aborted by such an exception. -/
def copyLoop (copyFails : ExtractedFile → Bool) (package_name : Str) :
    OutDir → List ExtractedFile → OutDir × Bool
  | d, [] => (d, false)
  | d, f :: rest =>
    match copyAction package_name f with
    | none => copyLoop copyFails package_name d rest
    | some kv =>
      if copyFails f then (d, true)
      else copyLoop copyFails package_name (dictInsert kv.1 kv.2 d) rest

/-- The copy loop when no copy raises. -/
def copyFiles (package_name : Str) (d : OutDir) (fs : List ExtractedFile) : OutDir :=
  (copyLoop (fun _ => false) package_name d fs).1

/-- Environment of one `download_and_extract` call: whether the download
succeeds, what extraction yields (`none` when `tarfile` raises), and which
copies raise. -/
structure ArchiveEnv where
  downloadOk : Bool
  extractResult : Option (List ExtractedFile)
  copyFails : ExtractedFile → Bool

/-- What one `download_and_extract` call did: its boolean return value,
whether the `tempfile.TemporaryDirectory` context removed the temporary
workspace on exit, and the final destination directory contents. -/
structure DEResult where
  success : Bool
  tmpCleaned : Bool
  dest : OutDir
deriving DecidableEq

/-- `download_and_extract`: download, extract, and classify-copy, entirely
inside a `with TemporaryDirectory` block whose cleanup runs on every exit;
the whole body is wrapped in `try/except Exception: return False`. -/
def download_and_extract (env : ArchiveEnv) (tarball_info : Tarball) (dest0 : OutDir) :
    DEResult :=
  let package_name := (extract_version_info tarball_info.name).1
  if env.downloadOk = false then { success := false, tmpCleaned := true, dest := dest0 }
  else
    match env.extractResult with
    | none => { success := false, tmpCleaned := true, dest := dest0 }
    | some files =>
      let r := copyLoop env.copyFails package_name dest0 files
      { success := !r.2, tmpCleaned := true, dest := r.1 }

/-! ## Concrete fixtures used by witnesses and counterexamples -/

def dsZero : DiskStats :=
  { total_images := 0, total_size_mb := 0, latest_mint_release := none,
    latest_mint_version := 0 }

/-- A listed tarball exactly at the size threshold. -/
def tbNadia : Tarball :=
  { name := "mint-backgrounds-nadia_1.4.tar.gz".data, url := "u".data,
    size_bytes := MIN_SIZE_BYTES, size_str := "16.5M".data }

/-- A listed tarball below the size threshold. -/
def tbSmall : Tarball :=
  { name := "mint-backgrounds-tiny_1.0.tar.gz".data, url := "u".data,
    size_bytes := 0, size_str := "0M".data }

/-- A one-directory remote listing whose downloads all succeed. -/
def envOk : ScanEnv :=
  { dirs := ["mint-backgrounds-nadia".data],
    tarballs := fun _ => [tbNadia, tbSmall],
    downloadOk := fun _ => true,
    now := "2026-10-12T00:00:00".data,
    diskStats := dsZero }

/-- The same remote listing, but every download fails. -/
def envFail : ScanEnv :=
  { envOk with downloadOk := fun _ => false }

/-- A fresh, empty inventory. -/
def v0 : Versions := { packages := [], last_checked := none, stats := none }

def fImg : ExtractedFile :=
  { relpath := "mint-backgrounds-nadia".data, name := "wallpaper1.jpg".data,
    is_symlink := false, content := 1 }

def fCreditsJpg : ExtractedFile :=
  { relpath := "mint-backgrounds-nadia".data, name := "credits.jpg".data,
    is_symlink := false, content := 7 }

def fCreditsTxt : ExtractedFile :=
  { relpath := "mint-backgrounds-nadia".data, name := "Credits.txt".data,
    is_symlink := false, content := 3 }

/-! ## String lemmas -/

theorem startsWith_append_self (p s : Str) : startsWith p (p ++ s) = true := by
  induction p with
  | nil => rfl
  | cons a as ih => simp [startsWith, ih]

theorem startsWith_self (p : Str) : startsWith p p = true := by
  simpa using startsWith_append_self p []

theorem splitFirst_eq_none_iff (c : Char) (s : Str) : splitFirst c s = none ↔ c ∉ s := by
  induction s with
  | nil => simp [splitFirst]
  | cons a rest ih =>
    by_cases h : a = c
    · subst h; simp [splitFirst]
    · rcases hs : splitFirst c rest with _ | p
      · simp [splitFirst, h, hs, Ne.symm h, ih.mp hs]
      · simp [splitFirst, h, hs, Ne.symm h]
        by_contra hc
        rw [ih.mpr hc] at hs
        cases hs

theorem splitFirst_append (c : Char) (a b : Str) (h : c ∉ a) :
    splitFirst c (a ++ c :: b) = some (a, b) := by
  induction a with
  | nil => simp [splitFirst]
  | cons x xs ih =>
    have hx : ¬x = c := fun e => h (by simp [e])
    have hxs : c ∉ xs := fun hm => h (List.mem_cons_of_mem _ hm)
    simp [splitFirst, hx, ih hxs]

theorem replaceAllGo_eq_self (pat s : Str) (h : hasSub pat s = false) :
    ∀ fuel, replaceAllGo pat fuel s = s := by
  induction s with
  | nil => intro fuel; cases fuel <;> rfl
  | cons c rest ih =>
    intro fuel
    rw [hasSub, Bool.or_eq_false_iff] at h
    cases fuel with
    | zero => rfl
    | succ f => simp [replaceAllGo, h.1, ih h.2 f]

theorem replaceAll_eq_self (pat s : Str) (h : hasSub pat s = false) :
    replaceAll pat s = s :=
  replaceAllGo_eq_self pat s h s.length

theorem onlyEndOcc_imp (pat s : Str) (h : onlyEndOcc pat s = true) :
    ∀ i, i < s.length → startsWith pat (s.drop i) = true → i + pat.length = s.length := by
  intro i hi hsw
  unfold onlyEndOcc at h
  rw [List.all_eq_true] at h
  have h2 := h i (List.mem_range.mpr hi)
  simp [hsw] at h2
  exact h2

theorem replaceAllGo_stem (pat stem : Str) (hp : pat ≠ [])
    (H : ∀ i, i < (stem ++ pat).length → startsWith pat ((stem ++ pat).drop i) = true →
      i + pat.length = (stem ++ pat).length) :
    ∀ fuel, (stem ++ pat).length ≤ fuel → replaceAllGo pat fuel (stem ++ pat) = stem := by
  induction stem with
  | nil =>
    intro fuel hf
    rcases pat with _ | ⟨c, p'⟩
    · exact absurd rfl hp
    · simp only [List.nil_append] at hf ⊢
      cases fuel with
      | zero => simp at hf
      | succ f =>
        have h1 : startsWith (c :: p') (c :: p') = true := startsWith_self _
        simp [replaceAllGo, h1, List.drop_length]
  | cons a stem' ih =>
    intro fuel hf
    cases fuel with
    | zero => simp at hf
    | succ f =>
      rw [List.cons_append] at H hf ⊢
      have hsw : startsWith pat (a :: (stem' ++ pat)) = false := by
        cases hsw : startsWith pat (a :: (stem' ++ pat))
        · rfl
        · exfalso
          have h0 := H 0 (by simp) (by simpa using hsw)
          simp at h0
          omega
      have H' : ∀ i, i < (stem' ++ pat).length →
          startsWith pat ((stem' ++ pat).drop i) = true →
          i + pat.length = (stem' ++ pat).length := by
        intro i hi hswi
        have hi1 : i + 1 < (a :: (stem' ++ pat)).length := by
          simp only [List.length_cons]
          omega
        have h1 := H (i + 1) hi1 (by rwa [List.drop_succ_cons])
        simp only [List.length_cons] at h1
        omega
      have hlen : (stem' ++ pat).length ≤ f := by
        simp only [List.length_cons] at hf
        omega
      simp [replaceAllGo, hsw, ih H' f hlen]

theorem replaceAll_stem (pat stem : Str) (hp : pat ≠ [])
    (h : onlyEndOcc pat (stem ++ pat) = true) :
    replaceAll pat (stem ++ pat) = stem :=
  replaceAllGo_stem pat stem hp (onlyEndOcc_imp _ _ h) _ le_rfl

theorem replaceAllGo_drop_head (pat rest : Str) (hp : pat ≠ [])
    (h : hasSub pat rest = false) :
    ∀ fuel, (pat ++ rest).length ≤ fuel → replaceAllGo pat fuel (pat ++ rest) = rest := by
  rcases pat with _ | ⟨c, p'⟩
  · exact absurd rfl hp
  · intro fuel hf
    cases fuel with
    | zero => simp at hf
    | succ f =>
      have h1 : startsWith (c :: p') (c :: (p' ++ rest)) = true :=
        startsWith_append_self (c :: p') rest
      have h2 : List.drop (c :: p').length (c :: (p' ++ rest)) = rest := by
        simp [List.drop_left p' rest]
      simp [replaceAllGo, h1, h2, replaceAllGo_eq_self _ _ h f]

theorem replaceAll_drop_head (pat rest : Str) (hp : pat ≠ [])
    (h : hasSub pat rest = false) :
    replaceAll pat (pat ++ rest) = rest :=
  replaceAllGo_drop_head pat rest hp h _ le_rfl

/-! ## Dict lemmas -/

theorem dictMem_append {α : Type} (k : Str) (d1 d2 : List (Str × α)) :
    dictMem k (d1 ++ d2) = (dictMem k d1 || dictMem k d2) := by
  induction d1 with
  | nil => simp [dictMem]
  | cons kv rest ih => simp [dictMem, ih, Bool.or_assoc]

theorem dictMem_map_update {α : Type} (k : Str) (v : α) (d : List (Str × α))
    (h : dictMem k d = true) :
    dictMem k (d.map (fun kv => if kv.1 = k then (k, v) else kv)) = true := by
  induction d with
  | nil => simp [dictMem] at h
  | cons kv rest ih =>
    by_cases hk : kv.1 = k
    · simp [dictMem, hk]
    · rw [dictMem, Bool.or_eq_true] at h
      rcases h with h | h
      · exact absurd (by simpa using h) hk
      · simp [dictMem, hk, ih h]

theorem dictMem_map_update_of_ne {α : Type} (a k : Str) (v : α) (d : List (Str × α))
    (_hne : a ≠ k) :
    dictMem a (d.map (fun kv => if kv.1 = k then (k, v) else kv)) = dictMem a d := by
  induction d with
  | nil => rfl
  | cons kv rest ih =>
    by_cases hk : kv.1 = k
    · simp [dictMem, hk, ih]
    · simp [dictMem, hk, ih]

theorem dictMem_insert_self {α : Type} (k : Str) (v : α) (d : List (Str × α)) :
    dictMem k (dictInsert k v d) = true := by
  cases h : dictMem k d
  · simp [dictInsert, h, dictMem_append, dictMem]
  · simp [dictInsert, h, dictMem_map_update k v d h]

theorem dictMem_insert_of_mem {α : Type} (a k : Str) (v : α) (d : List (Str × α))
    (h : dictMem a d = true) :
    dictMem a (dictInsert k v d) = true := by
  by_cases hak : a = k
  · subst hak; exact dictMem_insert_self a v d
  · cases hk : dictMem k d
    · simp [dictInsert, hk, dictMem_append, h]
    · simp [dictInsert, hk, dictMem_map_update_of_ne a k v d hak, h]

theorem dictMem_of_insert {α : Type} (a k : Str) (v : α) (d : List (Str × α))
    (h : dictMem a (dictInsert k v d) = true) : a = k ∨ dictMem a d = true := by
  by_cases hak : a = k
  · exact Or.inl hak
  · right
    cases hk : dictMem k d
    · simp [dictInsert, hk, dictMem_append, dictMem, Ne.symm hak] at h
      exact h
    · rwa [dictInsert, hk, if_pos rfl, dictMem_map_update_of_ne a k v d hak] at h

theorem dictGet_append_not_mem {α : Type} (k : Str) (d d2 : List (Str × α))
    (h : dictMem k d = false) : dictGet k (d ++ d2) = dictGet k d2 := by
  induction d with
  | nil => rfl
  | cons kv rest ih =>
    rw [dictMem, Bool.or_eq_false_iff] at h
    simp [dictGet, h.1, ih h.2]

theorem dictGet_map_update {α : Type} (k : Str) (v : α) (d : List (Str × α))
    (h : dictMem k d = true) :
    dictGet k (d.map (fun kv => if kv.1 = k then (k, v) else kv)) = some v := by
  induction d with
  | nil => simp [dictMem] at h
  | cons kv rest ih =>
    by_cases hk : kv.1 = k
    · simp [dictGet, hk]
    · rw [dictMem, Bool.or_eq_true] at h
      rcases h with h | h
      · exact absurd (by simpa using h) hk
      · simp [dictGet, hk, ih h]

theorem dictGet_insert_self {α : Type} (k : Str) (v : α) (d : List (Str × α)) :
    dictGet k (dictInsert k v d) = some v := by
  cases h : dictMem k d
  · simp [dictInsert, h, dictGet_append_not_mem k d _ h, dictGet]
  · simp [dictInsert, h, dictGet_map_update k v d h]

theorem dictGet_append_single_ne {α : Type} (a k : Str) (v : α) (d : List (Str × α))
    (hne : a ≠ k) : dictGet a (d ++ [(k, v)]) = dictGet a d := by
  induction d with
  | nil => simp [dictGet, Ne.symm hne]
  | cons kv rest ih => simp [dictGet, ih]

theorem dictGet_map_update_of_ne {α : Type} (a k : Str) (v : α) (d : List (Str × α))
    (hne : a ≠ k) :
    dictGet a (d.map (fun kv => if kv.1 = k then (k, v) else kv)) = dictGet a d := by
  induction d with
  | nil => rfl
  | cons kv rest ih =>
    by_cases hk : kv.1 = k
    · simp [dictGet, hk, Ne.symm hne, ih]
    · simp [dictGet, hk, ih]

theorem dictGet_insert_of_ne {α : Type} (a k : Str) (v : α) (d : List (Str × α))
    (hne : a ≠ k) : dictGet a (dictInsert k v d) = dictGet a d := by
  cases h : dictMem k d
  · simp [dictInsert, h, dictGet_append_single_ne a k v d hne]
  · simp [dictInsert, h, dictGet_map_update_of_ne a k v d hne]

/-! ## Orchestrator lemmas -/

theorem processAll_mem_mono (env : ScanEnv) (k : Str) :
    ∀ (q : List Tarball) (ex : PkgDict), dictMem k ex = true →
      dictMem k (processAll env ex q) = true := by
  intro q
  induction q with
  | nil => intro ex h; exact h
  | cons t rest ih =>
    intro ex h
    simp only [processAll]
    by_cases hd : env.downloadOk t = true
    · rw [if_pos hd]
      exact ih _ (dictMem_insert_of_mem k _ _ ex h)
    · rw [if_neg hd]
      exact ih _ h

theorem processAll_mem_of_queued (env : ScanEnv) (t : Tarball) :
    ∀ (q : List Tarball) (ex : PkgDict), t ∈ q → env.downloadOk t = true →
      dictMem (pkg_key t.name) (processAll env ex q) = true := by
  intro q
  induction q with
  | nil => intro ex h; simp at h
  | cons t' rest ih =>
    intro ex hmem hok
    simp only [processAll]
    rcases List.mem_cons.mp hmem with he | hm
    · subst he
      rw [if_pos hok]
      exact processAll_mem_mono env _ rest _ (dictMem_insert_self _ _ ex)
    · by_cases hd : env.downloadOk t' = true
      · rw [if_pos hd]; exact ih _ hm hok
      · rw [if_neg hd]; exact ih _ hm hok

theorem processAll_mem_inv (env : ScanEnv) (k : Str) :
    ∀ (q : List Tarball) (ex : PkgDict), dictMem k (processAll env ex q) = true →
      dictMem k ex = true ∨ ∃ t ∈ q, k = pkg_key t.name := by
  intro q
  induction q with
  | nil => intro ex h; exact Or.inl h
  | cons t rest ih =>
    intro ex h
    simp only [processAll] at h
    by_cases hd : env.downloadOk t = true
    · rw [if_pos hd] at h
      rcases ih _ h with h2 | ⟨t', ht', hk⟩
      · rcases dictMem_of_insert k _ _ ex h2 with he | h3
        · exact Or.inr ⟨t, List.mem_cons_self t rest, he⟩
        · exact Or.inl h3
      · exact Or.inr ⟨t', List.mem_cons_of_mem _ ht', hk⟩
    · rw [if_neg hd] at h
      rcases ih _ h with h2 | ⟨t', ht', hk⟩
      · exact Or.inl h2
      · exact Or.inr ⟨t', List.mem_cons_of_mem _ ht', hk⟩

theorem queueOf_eq_none_iff (ex : PkgDict) (t : Tarball) :
    queueOf ex t = none ↔
      (t.size_bytes < MIN_SIZE_BYTES ∨ dictMem (pkg_key t.name) ex = true) := by
  unfold queueOf
  split_ifs with h1 h2
  · simp [h1]
  · simp [h1, h2]
  · simp [h1, h2]

theorem mem_queue_of_some (env : ScanEnv) (ex : PkgDict) (t : Tarball) (b : Bool)
    (ht : t ∈ allTarballs env) (h : queueOf ex t = some b) :
    t ∈ new_packages env ex ++ updated_packages env ex := by
  rw [List.mem_append]
  cases b
  · left
    unfold new_packages
    rw [List.mem_filter]
    exact ⟨ht, by simp [h]⟩
  · right
    unfold updated_packages
    rw [List.mem_filter]
    exact ⟨ht, by simp [h]⟩

theorem check_and_download_packages (env : ScanEnv) (v : Versions) :
    (check_and_download env v).versions.packages =
      (if new_packages env v.packages ++ updated_packages env v.packages = []
       then v.packages
       else processAll env v.packages
         (new_packages env v.packages ++ updated_packages env v.packages)) := by
  simp only [check_and_download, save_versions]
  split_ifs with h <;> rfl

theorem check_and_download_queues (env : ScanEnv) (v : Versions) :
    (check_and_download env v).new_packages = new_packages env v.packages ∧
    (check_and_download env v).updated_packages = updated_packages env v.packages := by
  simp only [check_and_download]
  split_ifs <;> exact ⟨rfl, rfl⟩

theorem queueOf_after_run (env : ScanEnv) (v : Versions)
    (hok : ∀ t ∈ new_packages env v.packages ++ updated_packages env v.packages,
      env.downloadOk t = true)
    (t : Tarball) (ht : t ∈ allTarballs env) :
    queueOf (check_and_download env v).versions.packages t = none := by
  rw [check_and_download_packages]
  rcases hq : queueOf v.packages t with _ | b
  · rcases (queueOf_eq_none_iff _ t).mp hq with hsmall | hmem
    · rw [queueOf_eq_none_iff]
      split_ifs <;> exact Or.inl hsmall
    · rw [queueOf_eq_none_iff]
      split_ifs with h
      · exact Or.inr hmem
      · exact Or.inr (processAll_mem_mono env _ _ _ hmem)
  · have hmemq := mem_queue_of_some env v.packages t b ht hq
    have hne : new_packages env v.packages ++ updated_packages env v.packages ≠ [] :=
      List.ne_nil_of_mem hmemq
    rw [if_neg hne, queueOf_eq_none_iff]
    exact Or.inr (processAll_mem_of_queued env t _ v.packages hmemq (hok t hmemq))

theorem allTarballs_congr (env1 env2 : ScanEnv) (hdirs : env2.dirs = env1.dirs)
    (htars : ∀ d ∈ env1.dirs, env2.tarballs d = env1.tarballs d) :
    allTarballs env2 = allTarballs env1 := by
  unfold allTarballs
  rw [hdirs]
  revert htars
  generalize env1.dirs = l
  induction l with
  | nil => intro _; rfl
  | cons d ds ih =>
    intro htars
    simp only [List.flatMap_cons]
    rw [htars d (List.mem_cons_self d ds),
      ih (fun d' hd' => htars d' (List.mem_cons_of_mem _ hd'))]

theorem hasUpdatesLoop_iff (ex : PkgDict) :
    ∀ ts : List Tarball, (hasUpdatesLoop ex ts = true ↔
      ∃ t ∈ ts, ¬t.size_bytes < MIN_SIZE_BYTES ∧ dictMem (pkg_key t.name) ex = false) := by
  intro ts
  induction ts with
  | nil => simp [hasUpdatesLoop]
  | cons t rest ih =>
    simp only [hasUpdatesLoop]
    split_ifs with h1 h2
    · rw [ih]
      constructor
      · rintro ⟨t', ht', hp⟩
        exact ⟨t', List.mem_cons_of_mem _ ht', hp⟩
      · rintro ⟨t', ht', hp⟩
        rcases List.mem_cons.mp ht' with he | hm
        · subst he; exact absurd h1 hp.1
        · exact ⟨t', hm, hp⟩
    · rw [ih]
      constructor
      · rintro ⟨t', ht', hp⟩
        exact ⟨t', List.mem_cons_of_mem _ ht', hp⟩
      · rintro ⟨t', ht', hp⟩
        rcases List.mem_cons.mp ht' with he | hm
        · subst he
          exact absurd hp.2 (by simp [h2])
        · exact ⟨t', hm, hp⟩
    · simp only [Bool.not_eq_true] at h2
      simp only [true_iff]
      exact ⟨t, List.mem_cons_self t rest, h1, h2⟩

/-! ## Copy-loop lemmas -/

theorem copyFiles_cons (pn : Str) (d : OutDir) (f : ExtractedFile)
    (rest : List ExtractedFile) :
    copyFiles pn d (f :: rest) =
      (match copyAction pn f with
       | none => copyFiles pn d rest
       | some kv => copyFiles pn (dictInsert kv.1 kv.2 d) rest) := by
  rcases h : copyAction pn f with _ | kv
  · simp [copyFiles, copyLoop, h]
  · simp [copyFiles, copyLoop, h]

theorem copyFiles_append (pn : Str) (l1 l2 : List ExtractedFile) :
    ∀ d, copyFiles pn d (l1 ++ l2) = copyFiles pn (copyFiles pn d l1) l2 := by
  induction l1 with
  | nil => intro d; rfl
  | cons f rest ih =>
    intro d
    rcases h : copyAction pn f with _ | kv
    · rw [List.cons_append]
      simp only [copyFiles_cons, h]
      exact ih d
    · rw [List.cons_append]
      simp only [copyFiles_cons, h]
      exact ih _

theorem copyFiles_mem_mono (pn k : Str) :
    ∀ (fs : List ExtractedFile) (d : OutDir), dictMem k d = true →
      dictMem k (copyFiles pn d fs) = true := by
  intro fs
  induction fs with
  | nil => intro d h; exact h
  | cons f rest ih =>
    intro d h
    rcases ha : copyAction pn f with _ | kv
    · simp only [copyFiles_cons, ha]
      exact ih d h
    · simp only [copyFiles_cons, ha]
      exact ih _ (dictMem_insert_of_mem k kv.1 kv.2 d h)

theorem copyFiles_mem_of_action (pn k : Str) (c : Nat) :
    ∀ (fs : List ExtractedFile) (d : OutDir) (f : ExtractedFile), f ∈ fs →
      copyAction pn f = some (k, c) → dictMem k (copyFiles pn d fs) = true := by
  intro fs
  induction fs with
  | nil =>
    intro d f h
    simp at h
  | cons g rest ih =>
    intro d f hmem hact
    rcases List.mem_cons.mp hmem with he | hm
    · subst he
      simp only [copyFiles_cons, hact]
      exact copyFiles_mem_mono pn k rest _ (dictMem_insert_self k c d)
    · rcases ha : copyAction pn g with _ | kv
      · simp only [copyFiles_cons, ha]
        exact ih d f hm hact
      · simp only [copyFiles_cons, ha]
        exact ih _ f hm hact

theorem copyFiles_get_no_write (pn k : Str) :
    ∀ (fs : List ExtractedFile) (d : OutDir),
      (∀ g ∈ fs, ∀ c, copyAction pn g ≠ some (k, c)) →
      dictGet k (copyFiles pn d fs) = dictGet k d := by
  intro fs
  induction fs with
  | nil => intro d _; rfl
  | cons g rest ih =>
    intro d hno
    rcases ha : copyAction pn g with _ | kv
    · simp only [copyFiles_cons, ha]
      exact ih d (fun g' hg' => hno g' (List.mem_cons_of_mem _ hg'))
    · simp only [copyFiles_cons, ha]
      have hk : kv.1 ≠ k := by
        intro e
        apply hno g (List.mem_cons_self g rest) kv.2
        rw [ha, ← e]
      rw [ih _ (fun g' hg' => hno g' (List.mem_cons_of_mem _ hg'))]
      exact dictGet_insert_of_ne k kv.1 kv.2 d (Ne.symm hk)

/-! ## Fetch-loop lemmas -/

theorem fetchLoop_waits_isPref (oracle : Nat → FetchOutcome) :
    ∀ l : List Nat, (fetchLoop oracle l).waits <+:
      l.map (fun a => RETRY_DELAY * (a + 1)) := by
  intro l
  induction l with
  | nil => simp [fetchLoop]
  | cons a rest ih =>
    rcases ho : oracle a with body | code | _
    · simp only [fetchLoop, ho]
      exact List.nil_prefix
    · simp only [fetchLoop, ho]
      by_cases hc : (code == 429 || code == 503) = true
      · rw [if_pos hc]
        simp only [List.map_cons]
        obtain ⟨tl, htl⟩ := ih
        exact ⟨tl, by rw [List.cons_append, htl]⟩
      · rw [if_neg hc]
        exact List.nil_prefix
    · simp only [fetchLoop, ho]
      by_cases hc : a < MAX_RETRIES - 1
      · rw [if_pos hc]
        simp only [List.map_cons]
        obtain ⟨tl, htl⟩ := ih
        exact ⟨tl, by rw [List.cons_append, htl]⟩
      · rw [if_neg hc]
        exact List.nil_prefix

theorem fetchLoop_exhausted (oracle : Nat → FetchOutcome) :
    ∀ k : Nat, k ≤ MAX_RETRIES →
      (∀ i, MAX_RETRIES - k ≤ i → i < MAX_RETRIES → retryable (oracle i) = true) →
      (fetchLoop oracle (List.range' (MAX_RETRIES - k) k)).text = "".data ∧
      (fetchLoop oracle (List.range' (MAX_RETRIES - k) k)).attemptsMade = k := by
  intro k
  induction k with
  | zero => intro _ _; exact ⟨rfl, rfl⟩
  | succ n ih =>
    intro hk hall
    rw [List.range'_succ]
    have haM : MAX_RETRIES - (n + 1) < MAX_RETRIES := by omega
    have hra := hall (MAX_RETRIES - (n + 1)) (by omega) haM
    have hnext : MAX_RETRIES - (n + 1) + 1 = MAX_RETRIES - n := by omega
    have hprev := ih (by omega) (fun i h1 h2 => hall i (by omega) h2)
    rcases ho : oracle (MAX_RETRIES - (n + 1)) with body | code | _
    · rw [ho] at hra
      simp [retryable] at hra
    · rw [ho] at hra
      have hc : (code == 429 || code == 503) = true := hra
      simp only [fetchLoop, ho]
      rw [if_pos hc, hnext]
      exact ⟨hprev.1, by rw [hprev.2]⟩
    · by_cases hc : MAX_RETRIES - (n + 1) < MAX_RETRIES - 1
      · simp only [fetchLoop, ho]
        rw [if_pos hc, hnext]
        exact ⟨hprev.1, by rw [hprev.2]⟩
      · have hn : n = 0 := by omega
        subst hn
        simp only [fetchLoop, ho]
        rw [if_neg hc]
        exact ⟨rfl, rfl⟩

theorem fetchLoop_nonretryable (oracle : Nat → FetchOutcome) (i code : Nat)
    (hio : oracle i = .httpError code) (hcode : (code == 429 || code == 503) = false) :
    ∀ k : Nat, k ≤ MAX_RETRIES → MAX_RETRIES - k ≤ i → i < MAX_RETRIES →
      (∀ j, MAX_RETRIES - k ≤ j → j < i → retryable (oracle j) = true) →
      (fetchLoop oracle (List.range' (MAX_RETRIES - k) k)).text = "".data ∧
      (fetchLoop oracle (List.range' (MAX_RETRIES - k) k)).attemptsMade
        = i - (MAX_RETRIES - k) + 1 := by
  intro k
  induction k with
  | zero => intro _ h1 h2 _; omega
  | succ n ih =>
    intro hk hlo hhi hall
    rw [List.range'_succ]
    have hnext : MAX_RETRIES - (n + 1) + 1 = MAX_RETRIES - n := by omega
    by_cases hi : i = MAX_RETRIES - (n + 1)
    · subst hi
      simp only [fetchLoop, hio]
      rw [if_neg (by rw [hcode]; exact Bool.false_ne_true)]
      refine ⟨rfl, ?_⟩
      show 1 = MAX_RETRIES - (n + 1) - (MAX_RETRIES - (n + 1)) + 1
      omega
    · have hagt : MAX_RETRIES - (n + 1) < i := by omega
      have hra := hall (MAX_RETRIES - (n + 1)) le_rfl hagt
      have hprev := ih (by omega) (by omega) hhi
        (fun j h1 h2 => hall j (by omega) h2)
      rcases ho : oracle (MAX_RETRIES - (n + 1)) with body | code' | _
      · rw [ho] at hra
        simp [retryable] at hra
      · rw [ho] at hra
        have hc : (code' == 429 || code' == 503) = true := hra
        simp only [fetchLoop, ho]
        rw [if_pos hc, hnext]
        refine ⟨hprev.1, ?_⟩
        show (fetchLoop oracle (List.range' (MAX_RETRIES - n) n)).attemptsMade + 1
          = i - (MAX_RETRIES - (n + 1)) + 1
        rw [hprev.2]
        omega
      · have hc : MAX_RETRIES - (n + 1) < MAX_RETRIES - 1 := by omega
        simp only [fetchLoop, ho]
        rw [if_pos hc, hnext]
        refine ⟨hprev.1, ?_⟩
        show (fetchLoop oracle (List.range' (MAX_RETRIES - n) n)).attemptsMade + 1
          = i - (MAX_RETRIES - (n + 1)) + 1
        rw [hprev.2]
        omega

theorem splitFirst_not_mem_left (c : Char) :
    ∀ (s : Str) (p : Str × Str), splitFirst c s = some p → c ∉ p.1 := by
  intro s
  induction s with
  | nil => intro p h; cases h
  | cons a rest ih =>
    intro p h
    by_cases ha : a = c
    · subst ha
      simp [splitFirst] at h
      rw [← h]
      exact List.not_mem_nil _
    · rw [splitFirst, if_neg (by simpa using ha)] at h
      rcases hs : splitFirst c rest with _ | q
      · rw [hs] at h; cases h
      · rw [hs] at h
        cases h
        intro hmem
        rcases List.mem_cons.mp hmem with he | hm
        · exact ha he.symm
        · exact ih q hs hm

/-! ## Claims -/

/-- Claim C5: for every filename of the form
`mint-backgrounds-<name>_<version>.tar.gz` — i.e. whose decomposition is the
evident one: the `.tar.gz` marker occurs only as the final suffix, the
`mint-backgrounds-` marker only as the leading prefix, and `name` contains
no underscore — `extract_version_info` returns exactly `(name, version)`;
and for every filename whose stripped base contains no underscore it
returns `(base, "unknown")`. -/
theorem extract_version_info_forms :
    (∀ name ver : Str,
      onlyEndOcc ".tar.gz".data
          ("mint-backgrounds-".data ++ name ++ '_' :: (ver ++ ".tar.gz".data)) = true →
      hasSub "mint-backgrounds-".data (name ++ '_' :: ver) = false →
      '_' ∉ name →
      extract_version_info
          ("mint-backgrounds-".data ++ name ++ '_' :: (ver ++ ".tar.gz".data))
        = (name, ver))
    ∧ (∀ f : Str,
      '_' ∉ replaceAll "mint-backgrounds-".data (replaceAll ".tar.gz".data f) →
      extract_version_info f
        = (replaceAll "mint-backgrounds-".data (replaceAll ".tar.gz".data f),
           "unknown".data)) := by
  constructor
  · intro name ver hend hpre hu
    have e1 : "mint-backgrounds-".data ++ name ++ '_' :: (ver ++ ".tar.gz".data)
        = ("mint-backgrounds-".data ++ name ++ '_' :: ver) ++ ".tar.gz".data := by
      simp
    have h1 : replaceAll ".tar.gz".data
        ("mint-backgrounds-".data ++ name ++ '_' :: (ver ++ ".tar.gz".data))
        = "mint-backgrounds-".data ++ name ++ '_' :: ver := by
      rw [e1]
      exact replaceAll_stem _ _ (by decide) (e1 ▸ hend)
    have h2 : replaceAll "mint-backgrounds-".data
        ("mint-backgrounds-".data ++ name ++ '_' :: ver) = name ++ '_' :: ver := by
      rw [List.append_assoc]
      exact replaceAll_drop_head _ _ (by decide) hpre
    simp only [extract_version_info, h1, h2, splitFirst_append '_' name ver hu]
  · intro f hf
    simp only [extract_version_info]
    rw [(splitFirst_eq_none_iff '_' _).mpr hf]

/-- Witness for C5 at the concrete filename
`mint-backgrounds-nadia_1.4.tar.gz`. -/
theorem extract_version_info_forms_witness :
    (onlyEndOcc ".tar.gz".data
        ("mint-backgrounds-".data ++ "nadia".data
          ++ '_' :: ("1.4".data ++ ".tar.gz".data)) = true
      ∧ hasSub "mint-backgrounds-".data ("nadia".data ++ '_' :: "1.4".data) = false
      ∧ '_' ∉ "nadia".data)
    ∧ extract_version_info
        ("mint-backgrounds-".data ++ "nadia".data
          ++ '_' :: ("1.4".data ++ ".tar.gz".data))
      = ("nadia".data, "1.4".data) :=
  ⟨⟨by decide, by decide, by decide⟩,
    extract_version_info_forms.1 "nadia".data "1.4".data
      (by decide) (by decide) (by decide)⟩

/-- Claim C10 is false as stated: the reconstruction of package names by
applying `extract_version_info` to a stored version key does not always
recover the package name that formed the key.  For the listed filename
`.tar.tar.gz.gz_1.tar.gz` (matched by the `href="...tar.gz"` pattern), the
one-pass `str.replace` leaves the base `.tar.gz_1`, so the key is
`.tar.gz_1`; re-applying `extract_version_info` to that key strips the
embedded `.tar.gz` and yields package name `""` instead of `.tar.gz`. -/
theorem pkg_key_reconstruction_cex :
    (extract_version_info (pkg_key ".tar.tar.gz.gz_1.tar.gz".data)).1
      ≠ (extract_version_info ".tar.tar.gz.gz_1.tar.gz".data).1 := by decide

/-- Claim C10 (amended): the package name returned by
`extract_version_info` never contains an underscore; therefore the key
`"{package_name}_{version}"` uniquely determines the pair; and the
reconstruction of the package name from a stored key by
`extract_version_info` recovers it exactly *provided* the key contains no
occurrence of `.tar.gz` or `mint-backgrounds-` (without that proviso the
counterexample above applies). -/
theorem pkg_key_invariants :
    (∀ f : Str, '_' ∉ (extract_version_info f).1)
    ∧ (∀ n1 v1 n2 v2 : Str, '_' ∉ n1 → '_' ∉ n2 →
        n1 ++ '_' :: v1 = n2 ++ '_' :: v2 → n1 = n2 ∧ v1 = v2)
    ∧ (∀ n v : Str, '_' ∉ n →
        hasSub ".tar.gz".data (n ++ '_' :: v) = false →
        hasSub "mint-backgrounds-".data (n ++ '_' :: v) = false →
        extract_version_info (n ++ '_' :: v) = (n, v)) := by
  refine ⟨?_, ?_, ?_⟩
  · intro f
    simp only [extract_version_info]
    rcases h : splitFirst '_'
        (replaceAll "mint-backgrounds-".data (replaceAll ".tar.gz".data f)) with _ | p
    · exact (splitFirst_eq_none_iff '_' _).mp h
    · exact splitFirst_not_mem_left '_' _ p h
  · intro n1 v1 n2 v2 h1 h2 he
    have e1 := splitFirst_append '_' n1 v1 h1
    rw [he, splitFirst_append '_' n2 v2 h2] at e1
    simp only [Option.some.injEq, Prod.mk.injEq] at e1
    exact ⟨e1.1.symm, e1.2.symm⟩
  · intro n v hu hs1 hs2
    simp only [extract_version_info, replaceAll_eq_self _ _ hs1,
      replaceAll_eq_self _ _ hs2, splitFirst_append '_' n v hu]

/-- Witness for the amended C10 at the key `nadia_1.4`. -/
theorem pkg_key_invariants_witness :
    ('_' ∉ "nadia".data
      ∧ hasSub ".tar.gz".data ("nadia".data ++ '_' :: "1.4".data) = false
      ∧ hasSub "mint-backgrounds-".data ("nadia".data ++ '_' :: "1.4".data) = false)
    ∧ extract_version_info ("nadia".data ++ '_' :: "1.4".data)
        = ("nadia".data, "1.4".data) :=
  ⟨⟨by decide, by decide, by decide⟩,
    pkg_key_invariants.2.2 "nadia".data "1.4".data (by decide) (by decide) (by decide)⟩

/-- Claim C6 is false as stated: for a numeric token followed by an
unrecognized unit letter, the claim says `parse_size` returns the numeric
part (multiplier 1); the regex `([0-9.]+)([MKG])` does not match such a
token at all, so `parse_size("500T")` is `0`, not `500`. -/
theorem parse_size_unrecognized_unit_cex :
    parse_size "500T".data = some 0 ∧ parse_size "500T".data ≠ some 500 :=
  ⟨by decide, by decide⟩

/-- Claim C6 (amended): `parse_size` uses multipliers K=1024, M=1024²,
G=1024³ for tokens the regex matches, and the listed concrete equalities
hold; but a numeric token followed by any unit letter other than `K`, `M`,
`G` fails the regex match and yields `0` — the dictionary's multiplier-1
fallback (`multipliers.get(unit, 1)`) is unreachable. -/
theorem parse_size_spec :
    parse_size "16.5M".data = some 17301504
    ∧ parse_size "500K".data = some 512000
    ∧ parse_size "2G".data = some 2147483648
    ∧ parse_size "".data = some 0
    ∧ parse_size "garbage".data = some 0
    ∧ (∀ (p rest : Str) (u : Char), (∀ c ∈ p, isSizeChar c = true) →
        isSizeChar u = false → u ≠ 'M' → u ≠ 'K' → u ≠ 'G' →
        parse_size (p ++ u :: rest) = some 0) := by
  refine ⟨by decide, by decide, by decide, by decide, by decide, ?_⟩
  intro p rest u hp hu hm hk hg
  have htw : (p ++ u :: rest).takeWhile isSizeChar = p := by
    induction p with
    | nil => simp [List.takeWhile_cons, hu]
    | cons c cs ih =>
      have hc := hp c (List.mem_cons_self c cs)
      simp only [List.cons_append, List.takeWhile_cons, hc, if_true]
      rw [ih (fun c' hc' => hp c' (List.mem_cons_of_mem _ hc'))]
  have hdrop : (p ++ u :: rest).drop p.length = u :: rest := List.drop_left p (u :: rest)
  have hcond : (u == 'M' || u == 'K' || u == 'G') = false := by
    simp [hm, hk, hg]
  have hie : (p ++ u :: rest).isEmpty = false := by
    cases p <;> rfl
  simp only [parse_size, hie, Bool.false_eq_true, if_false, htw, hdrop, hcond]
  split_ifs <;> rfl

/-- Witness for the amended C6 at the token `500T`. -/
theorem parse_size_spec_witness :
    ((∀ c ∈ "500".data, isSizeChar c = true) ∧ isSizeChar 'T' = false
      ∧ 'T' ≠ 'M' ∧ 'T' ≠ 'K' ∧ 'T' ≠ 'G')
    ∧ parse_size ("500".data ++ 'T' :: []) = some 0 :=
  ⟨⟨by decide, by decide, by decide, by decide, by decide⟩,
    parse_size_spec.2.2.2.2.2 "500".data [] 'T'
      (by decide) (by decide) (by decide) (by decide) (by decide)⟩

/-- Claim C7: `fetch_page` never raises (it is a total function of the
attempt oracle and always returns a `FetchResult`); its backoff waits are
always an initial segment of the attempt-indexed linear schedule
`[5, 10, 15]` (`RETRY_DELAY * (attempt+1)`); when every attempt fails
retryably (HTTP 429/503 or `URLError`) it consumes all `MAX_RETRIES`
attempts and returns the empty string; and on a non-retryable HTTP error at
attempt `i` it returns the empty string immediately after attempt `i`, with
no further attempt. -/
theorem fetch_page_retry_policy (oracle : Nat → FetchOutcome) :
    (fetch_page oracle).waits <+: [5, 10, 15]
    ∧ ((∀ i, i < MAX_RETRIES → retryable (oracle i) = true) →
        (fetch_page oracle).text = "".data
        ∧ (fetch_page oracle).attemptsMade = MAX_RETRIES)
    ∧ (∀ i code, i < MAX_RETRIES → oracle i = .httpError code →
        (code == 429 || code == 503) = false →
        (∀ j, j < i → retryable (oracle j) = true) →
        (fetch_page oracle).text = "".data
        ∧ (fetch_page oracle).attemptsMade = i + 1) := by
  refine ⟨?_, ?_, ?_⟩
  · have h := fetchLoop_waits_isPref oracle (List.range MAX_RETRIES)
    have e : (List.range MAX_RETRIES).map (fun a => RETRY_DELAY * (a + 1))
        = [5, 10, 15] := by decide
    rw [e] at h
    exact h
  · intro hall
    have h := fetchLoop_exhausted oracle MAX_RETRIES le_rfl
      (fun i _ h2 => hall i h2)
    rw [Nat.sub_self, ← List.range_eq_range'] at h
    exact h
  · intro i code hi ho hcode hall
    have h := fetchLoop_nonretryable oracle i code ho hcode MAX_RETRIES le_rfl
      (by omega) hi (fun j _ h2 => hall j h2)
    rw [Nat.sub_self, ← List.range_eq_range'] at h
    refine ⟨h.1, ?_⟩
    show (fetchLoop oracle (List.range MAX_RETRIES)).attemptsMade = i + 1
    rw [h.2]
    omega

/-- Witness for C7: with every attempt a connection error, `fetch_page`
returns the empty string after all three attempts. -/
theorem fetch_page_retry_policy_witness :
    (∀ i, i < MAX_RETRIES → retryable ((fun _ => FetchOutcome.urlError) i) = true)
    ∧ (fetch_page (fun _ => FetchOutcome.urlError)).text = "".data
    ∧ (fetch_page (fun _ => FetchOutcome.urlError)).attemptsMade = MAX_RETRIES :=
  ⟨by decide,
    ((fetch_page_retry_policy (fun _ => FetchOutcome.urlError)).2.1 (by decide)).1,
    ((fetch_page_retry_policy (fun _ => FetchOutcome.urlError)).2.1 (by decide)).2⟩

/-- Claim C1 is false as stated: when a queued download fails on the first
run, the item is not recorded and the second run — with the remote listings
unchanged — queues it again, so the second run's `new_packages` is not
empty.  Concretely, with one directory listing `tbNadia` (at threshold) and
`tbSmall`, and every download failing, both runs queue `tbNadia`. -/
theorem check_and_download_idempotent_cex :
    (check_and_download envFail (check_and_download envFail v0).versions).new_packages
      ≠ [] := by decide

/-- Claim C1 (amended): if the remote listings are unchanged between the
two runs (same directories, same tarball entries and sizes) *and every
queued download of the first run succeeds*, then the second run queues zero
items (both queues empty) and leaves the inventory's `packages` mapping
exactly as the first run left it; only `last_checked` and the derived
statistics are rewritten by the second run's save. -/
theorem check_and_download_idempotent (env1 env2 : ScanEnv) (v : Versions)
    (hdirs : env2.dirs = env1.dirs)
    (htars : ∀ d ∈ env1.dirs, env2.tarballs d = env1.tarballs d)
    (hok : ∀ t ∈ new_packages env1 v.packages ++ updated_packages env1 v.packages,
      env1.downloadOk t = true) :
    (check_and_download env2 (check_and_download env1 v).versions).new_packages = []
    ∧ (check_and_download env2 (check_and_download env1 v).versions).updated_packages = []
    ∧ (check_and_download env2 (check_and_download env1 v).versions).versions.packages
        = (check_and_download env1 v).versions.packages := by
  have hall : allTarballs env2 = allTarballs env1 := allTarballs_congr env1 env2 hdirs htars
  have hnone : ∀ t ∈ allTarballs env2,
      queueOf (check_and_download env1 v).versions.packages t = none := by
    intro t ht
    rw [hall] at ht
    exact queueOf_after_run env1 v hok t ht
  have hnew : new_packages env2 (check_and_download env1 v).versions.packages = [] := by
    rw [new_packages, List.filter_eq_nil_iff]
    intro t ht
    simp [hnone t ht]
  have hupd : updated_packages env2 (check_and_download env1 v).versions.packages = [] := by
    rw [updated_packages, List.filter_eq_nil_iff]
    intro t ht
    simp [hnone t ht]
  obtain ⟨hn2, hu2⟩ := check_and_download_queues env2 (check_and_download env1 v).versions
  refine ⟨hn2.trans hnew, hu2.trans hupd, ?_⟩
  rw [check_and_download_packages, hnew, hupd]
  simp

/-- Witness for the amended C1: the same all-successful environment run
twice queues nothing the second time and preserves the packages mapping. -/
theorem check_and_download_idempotent_witness :
    (envOk.dirs = envOk.dirs
      ∧ (∀ d ∈ envOk.dirs, envOk.tarballs d = envOk.tarballs d)
      ∧ (∀ t ∈ new_packages envOk v0.packages ++ updated_packages envOk v0.packages,
          envOk.downloadOk t = true))
    ∧ (check_and_download envOk (check_and_download envOk v0).versions).new_packages = []
    ∧ (check_and_download envOk (check_and_download envOk v0).versions).versions.packages
        = (check_and_download envOk v0).versions.packages :=
  ⟨⟨rfl, by decide, by decide⟩,
    (check_and_download_idempotent envOk envOk v0 rfl (by decide) (by decide)).1,
    (check_and_download_idempotent envOk envOk v0 rfl (by decide) (by decide)).2.2⟩

/-- Claim C2: a tarball entry strictly below `MIN_SIZE_BYTES` is never
queued by `check_and_download` (it is in neither queue, and every key of
the resulting `packages` mapping comes either from the previous inventory
or from a queued tarball), and `has_updates` never returns `True` on its
account: whenever the scan loop of `has_updates` returns `True`, some
*other* entry at or above the threshold with an unseen key exists. -/
theorem small_tarball_never_queued (env : ScanEnv) (v : Versions) (t : Tarball)
    (_ht : t ∈ allTarballs env) (hsmall : t.size_bytes < MIN_SIZE_BYTES) :
    t ∉ (check_and_download env v).new_packages
    ∧ t ∉ (check_and_download env v).updated_packages
    ∧ (∀ k, dictMem k (check_and_download env v).versions.packages = true →
        dictMem k v.packages = true ∨
        ∃ t' ∈ (check_and_download env v).new_packages
            ++ (check_and_download env v).updated_packages, k = pkg_key t'.name)
    ∧ (hasUpdatesLoop v.packages (allTarballs env) = true →
        ∃ t' ∈ allTarballs env, t' ≠ t ∧ ¬t'.size_bytes < MIN_SIZE_BYTES ∧
          dictMem (pkg_key t'.name) v.packages = false) := by
  have hq : queueOf v.packages t = none := (queueOf_eq_none_iff _ _).mpr (Or.inl hsmall)
  obtain ⟨hnew, hupd⟩ := check_and_download_queues env v
  refine ⟨?_, ?_, ?_, ?_⟩
  · rw [hnew]
    intro hmem
    rw [new_packages, List.mem_filter] at hmem
    simp [hq] at hmem
  · rw [hupd]
    intro hmem
    rw [updated_packages, List.mem_filter] at hmem
    simp [hq] at hmem
  · intro k hk
    rw [check_and_download_packages] at hk
    rw [hnew, hupd]
    split_ifs at hk with h
    · exact Or.inl hk
    · exact processAll_mem_inv env k _ v.packages hk
  · intro hu
    obtain ⟨t', ht', hbig, hmem⟩ :=
      (hasUpdatesLoop_iff v.packages (allTarballs env)).mp hu
    exact ⟨t', ht', fun e => hbig (e ▸ hsmall), hbig, hmem⟩

/-- Witness for C2 at the below-threshold entry `tbSmall`. -/
theorem small_tarball_never_queued_witness :
    (tbSmall ∈ allTarballs envOk ∧ tbSmall.size_bytes < MIN_SIZE_BYTES)
    ∧ tbSmall ∉ (check_and_download envOk v0).new_packages
    ∧ tbSmall ∉ (check_and_download envOk v0).updated_packages :=
  ⟨⟨by decide, by decide⟩,
    (small_tarball_never_queued envOk v0 tbSmall (by decide) (by decide)).1,
    (small_tarball_never_queued envOk v0 tbSmall (by decide) (by decide)).2.1⟩

/-- Claim C3: in the copy loop of `download_and_extract`, a symlink is
never copied; an image-named file containing "screenshot" (lowercased) is
never copied; and a non-symlink image-named file without "screenshot" is
copied under its own basename — the copy step is exactly a dict
insert-or-overwrite at that basename — and its basename is present in the
final destination directory. -/
theorem copy_loop_classification (package_name : Str) (d : OutDir)
    (fs : List ExtractedFile) (f : ExtractedFile) (hf : f ∈ fs) :
    (f.is_symlink = true → copyAction package_name f = none)
    ∧ (imageExts.any (fun e => endsWith e (lowerStr f.name)) = true →
        hasSub "screenshot".data (lowerStr f.name) = true →
        copyAction package_name f = none)
    ∧ (f.is_symlink = false →
        imageExts.any (fun e => endsWith e (lowerStr f.name)) = true →
        hasSub "screenshot".data (lowerStr f.name) = false →
        copyAction package_name f = some (f.name, f.content)
        ∧ (∀ (d0 : OutDir) (rest : List ExtractedFile),
            copyFiles package_name d0 (f :: rest)
              = copyFiles package_name (dictInsert f.name f.content d0) rest)
        ∧ dictMem f.name (copyFiles package_name d fs) = true) := by
  refine ⟨?_, ?_, ?_⟩
  · intro hs
    simp [copyAction, hs]
  · intro himg hscr
    cases hsym : f.is_symlink <;> simp [copyAction, hsym, himg, hscr]
  · intro hs himg hscr
    have ha : copyAction package_name f = some (f.name, f.content) := by
      simp [copyAction, hs, himg, hscr]
    refine ⟨ha, ?_, ?_⟩
    · intro d0 rest
      simp only [copyFiles_cons, ha]
    · exact copyFiles_mem_of_action package_name f.name f.content fs d f hf ha

/-- Witness for C3 at the image file `wallpaper1.jpg`. -/
theorem copy_loop_classification_witness :
    (fImg ∈ [fImg] ∧ fImg.is_symlink = false
      ∧ imageExts.any (fun e => endsWith e (lowerStr fImg.name)) = true
      ∧ hasSub "screenshot".data (lowerStr fImg.name) = false)
    ∧ copyAction "nadia".data fImg = some (fImg.name, fImg.content)
    ∧ dictMem fImg.name (copyFiles "nadia".data [] [fImg]) = true :=
  ⟨⟨by decide, by decide, by decide, by decide⟩,
    ((copy_loop_classification "nadia".data [] [fImg] fImg (by decide)).2.2
      (by decide) (by decide) (by decide)).1,
    ((copy_loop_classification "nadia".data [] [fImg] fImg (by decide)).2.2
      (by decide) (by decide) (by decide)).2.2⟩

/-- Claim C4 is false as stated: `credits.jpg` contains "credits" but also
ends with an image extension, so the image branch (not the `elif` credits
branch) handles it; it is copied under its own name, and no
`Credits_nadia` entry is written. -/
theorem credits_image_not_renamed_cex :
    copyFiles "nadia".data [] [fCreditsJpg] = [("credits.jpg".data, 7)]
    ∧ dictMem ("Credits_".data ++ "nadia".data)
        (copyFiles "nadia".data [] [fCreditsJpg]) = false :=
  ⟨by decide, by decide⟩

/-- Claim C4 (amended): a non-symlink file whose lowercased name contains
"credits" *and which does not end with an image extension* is copied
renamed to `Credits_{package_name}`, where `package_name` is the
un-normalized first component of `extract_version_info` of the tarball
name; when several such files exist the last one processed wins (files
carrying an image extension are handled by the image branch instead and
keep their own name). -/
theorem credits_file_renamed (t : Tarball) (d : OutDir) (f : ExtractedFile)
    (l1 l2 : List ExtractedFile)
    (h1 : f.is_symlink = false)
    (h2 : imageExts.any (fun e => endsWith e (lowerStr f.name)) = false)
    (h3 : hasSub "credits".data (lowerStr f.name) = true)
    (h4 : ∀ g ∈ l2, ∀ c : Nat,
      copyAction (extract_version_info t.name).1 g
        ≠ some ("Credits_".data ++ (extract_version_info t.name).1, c)) :
    copyAction (extract_version_info t.name).1 f
      = some ("Credits_".data ++ (extract_version_info t.name).1, f.content)
    ∧ dictGet ("Credits_".data ++ (extract_version_info t.name).1)
        (copyFiles (extract_version_info t.name).1 d (l1 ++ f :: l2))
      = some f.content := by
  have ha : copyAction (extract_version_info t.name).1 f
      = some ("Credits_".data ++ (extract_version_info t.name).1, f.content) := by
    simp [copyAction, h1, h2, h3]
  refine ⟨ha, ?_⟩
  rw [copyFiles_append]
  simp only [copyFiles_cons, ha]
  rw [copyFiles_get_no_write _ _ l2 _ h4]
  exact dictGet_insert_self _ _ _

/-- Witness for the amended C4 at `Credits.txt` inside
`mint-backgrounds-nadia_1.4.tar.gz`. -/
theorem credits_file_renamed_witness :
    (fCreditsTxt.is_symlink = false
      ∧ imageExts.any (fun e => endsWith e (lowerStr fCreditsTxt.name)) = false
      ∧ hasSub "credits".data (lowerStr fCreditsTxt.name) = true
      ∧ (∀ g ∈ ([] : List ExtractedFile), ∀ c : Nat,
          copyAction (extract_version_info tbNadia.name).1 g
            ≠ some ("Credits_".data ++ (extract_version_info tbNadia.name).1, c)))
    ∧ dictGet ("Credits_".data ++ (extract_version_info tbNadia.name).1)
        (copyFiles (extract_version_info tbNadia.name).1 []
          ([] ++ fCreditsTxt :: []))
      = some fCreditsTxt.content :=
  ⟨⟨by decide, by decide, by decide, by simp⟩,
    (credits_file_renamed tbNadia [] fCreditsTxt [] []
      (by decide) (by decide) (by decide) (by simp)).2⟩

/-- Claim C8: `download_and_extract` always terminates with a boolean (the
temporary workspace is cleaned on every exit path by the
`with TemporaryDirectory` block), and it returns `True` exactly when the
download succeeded, extraction succeeded, and no copy raised — so every
exception along the download/extract/copy path yields `False` rather than
propagating. -/
theorem download_and_extract_safe (env : ArchiveEnv) (t : Tarball) (d0 : OutDir) :
    (download_and_extract env t d0).tmpCleaned = true
    ∧ ((download_and_extract env t d0).success = true ↔
        (env.downloadOk = true ∧ ∃ fs, env.extractResult = some fs ∧
          (copyLoop env.copyFails (extract_version_info t.name).1 d0 fs).2 = false)) := by
  unfold download_and_extract
  rcases hd : env.downloadOk
  · simp [hd]
  · rcases he : env.extractResult with _ | fs
    · simp [hd, he]
    · simp [hd, he]

/-- Claim C9: `has_updates` performs no writes — the world (persisted
inventory document and output tree) it returns is exactly the world it was
given — and it returns `True` iff some listed tarball at or above the size
threshold has a version key absent from the loaded inventory's `packages`
mapping. -/
theorem has_updates_readonly (env : ScanEnv) (w : World) :
    (has_updates env w).1 = w
    ∧ ((has_updates env w).2 = true ↔
        ∃ t ∈ allTarballs env, ¬t.size_bytes < MIN_SIZE_BYTES ∧
          dictMem (pkg_key t.name) (load_versions w).packages = false) :=
  ⟨rfl, hasUpdatesLoop_iff _ _⟩
